import Mathlib

/-!
Verification of the `classMap` directive (src/directives/class-map.ts).

The directive reconciles an element's `class` attribute against a declarative
map from class name to a truthy/falsy value.  We embed the reconciler as a
pure function over an explicit binding-site state:

* `JSVal` models the `string | boolean | number` values of a `ClassInfo`
  (numbers are modelled as integers; all values occurring in the claims are
  integral).
* JS `Set<string>` objects are modelled as insertion-ordered duplicate-free
  lists (`jsSetAdd` / `List.erase`).
* The element's `class` attribute is modelled as its ordered token set
  (`List String`); a committed attribute string is re-parsed with `tokensOf`.
* The host part/committer machinery is reduced to the data the directive
  reads: `PartShape` (for the usage check) and `SiteState` (element tokens,
  native `classList` capability, and the `previousClassesCache` entry).
* Each call of the directive body is `classMap shape classInfo st`, returning
  `Except` (the usage error) and an `ApplyOut` that also records the
  add/remove calls issued to the class-list target (`ops`) and the committed
  attribute string, if any (`committed`).

Note on the source: in the subsequent-render branch the source evaluates
`element.classList || new ClassList(part)`.  The shim is constructed from the
*part*, so it is seeded empty with `changed = true`; the `ClassList`
constructor's element branch (which seeds from the current `class` attribute)
is unreachable from `classMap`.  The embedding reproduces this faithfully.
-/

namespace LitClassMap

/-- A JavaScript value of type `string | boolean | number` as allowed by
`ClassInfo`.  Numbers are modelled as integers. -/
inductive JSVal where
  | s (str : String)
  | b (bb : Bool)
  | n (k : Int)
deriving DecidableEq, Repr

/-- JS truthiness for `ClassInfo` values: `''`, `false` and `0` are falsy,
everything else is truthy. -/
def truthy : JSVal → Bool
  | .s str => str != ""
  | .b bb => bb
  | .n k => k != 0

/-- ASCII whitespace, as used when parsing a `class` attribute and when
trimming a string for numeric coercion. -/
def isWS (c : Char) : Bool :=
  c == ' ' || c == '\t' || c == '\n' || c == '\r' || c == '\x0c'

/-- Numeric coercion (`ToNumber`) of a JS string, modelled for the value
shapes that occur in class maps: whitespace-only strings coerce to `0`,
unsigned decimal digit strings to their value, and anything else to NaN
(`none`). -/
def jsStrToNum (str : String) : Option Int :=
  let t :=
    ((str.data.dropWhile isWS).reverse.dropWhile isWS).reverse
  if t = [] then some 0
  else if t.all Char.isDigit then
    some (Int.ofNat (t.foldl (fun acc c => acc * 10 + (c.toNat - 48)) 0))
  else none

/-- `ToNumber` on a `ClassInfo` value; `none` is NaN. -/
def jsToNum : JSVal → Option Int
  | .s str => jsStrToNum str
  | .b bb => some (if bb then 1 else 0)
  | .n k => some k

/-- JS loose equality `value == hasFlag` between a `ClassInfo` value and a
boolean: the boolean is coerced to `0`/`1` and compared numerically; a NaN
coercion compares unequal. -/
def looseEqBool (v : JSVal) (has : Bool) : Bool :=
  match jsToNum v with
  | some k => k == (if has then (1 : Int) else 0)
  | none => false

/-- `Set.add`: append if absent (JS sets keep insertion order). -/
def jsSetAdd (l : List String) (x : String) : List String :=
  if x ∈ l then l else l ++ [x]

/-- Split a character list at every whitespace character (empty segments are
kept; the caller filters them). -/
def tokSplit : List Char → List (List Char)
  | [] => [[]]
  | c :: cs =>
    match tokSplit cs with
    | [] => [[]]
    | t :: ts => if isWS c then [] :: t :: ts else (c :: t) :: ts

/-- Deduplicate keeping first occurrences (an ordered token set). -/
def dedupFirst (l : List String) : List String := l.foldl jsSetAdd []

/-- The ordered token set of a `class` attribute string: split on whitespace,
drop empty tokens, deduplicate keeping first occurrences. -/
def tokensOf (str : String) : List String :=
  dedupFirst (((tokSplit str.data).map (fun cs => String.mk cs)).filter
    (fun t => t != ""))

/-- `ClassList.commit`'s string: every class followed by a space
(`classString += cls + ' '`). -/
def commitString (classes : List String) : String :=
  classes.foldl (fun acc cls => acc ++ cls ++ " ") ""

/-- A `ClassInfo` object: insertion-ordered key/value pairs. -/
abbrev ClassInfo := List (String × JSVal)

/-- `name in classInfo` (own keys; prototype-inherited names are not
modelled). -/
def hasKey (m : ClassInfo) (x : String) : Bool := m.any (fun e => e.1 == x)

/-- The shape of the part the directive is bound to, as far as the usage
check reads it: `part instanceof AttributePart`, `part instanceof
PropertyPart`, `part.committer.name` and `part.committer.parts.length`. -/
structure PartShape where
  isAttributePart : Bool
  isPropertyPart : Bool
  committerName : String
  numParts : Nat
deriving DecidableEq, Repr

/-- The per-binding-site state read and written by one application: the
element's current class token set, whether `element.classList` exists
(absent on IE11 SVG elements), and the `previousClassesCache` entry for the
part (`none` before the first render). -/
structure SiteState where
  attr : List String
  hasClassList : Bool
  prevCache : Option (List String)
deriving DecidableEq, Repr

/-- An `add`/`remove` call issued to the class-list target. -/
inductive Op where
  | add (cls : String)
  | remove (cls : String)
deriving DecidableEq, Repr

/-- The class the operation is about. -/
def Op.cls : Op → String
  | .add x => x
  | .remove x => x

/-- The working state threaded through the two reconciliation passes:
element tokens (mutated by a native target), the shim's class set and
`changed` flag, the working `previousClasses` set, and the trace of target
calls. -/
structure ReconState where
  attr : List String
  shim : List String
  changed : Bool
  prev : List String
  ops : List Op
deriving DecidableEq, Repr

/-- `classList.add(name)`: a native target inserts into the live token set;
the shim target inserts into its buffered set and flags `changed`. -/
def targetAdd (useNative : Bool) (r : ReconState) (x : String) : ReconState :=
  if useNative then
    { r with attr := jsSetAdd r.attr x, ops := r.ops ++ [Op.add x] }
  else
    { r with shim := jsSetAdd r.shim x, changed := true,
             ops := r.ops ++ [Op.add x] }

/-- `classList.remove(name)`. -/
def targetRemove (useNative : Bool) (r : ReconState) (x : String) :
    ReconState :=
  if useNative then
    { r with attr := r.attr.erase x, ops := r.ops ++ [Op.remove x] }
  else
    { r with shim := r.shim.erase x, changed := true,
             ops := r.ops ++ [Op.remove x] }

/-- One step of the removal pass: `if (!(name in classInfo)) {
classList.remove(name); previousClasses.delete(name); }`. -/
def removalStep (useNative : Bool) (m : ClassInfo) (acc : ReconState)
    (name : String) : ReconState :=
  if hasKey m name then acc
  else
    let acc2 := targetRemove useNative acc name
    { acc2 with prev := acc2.prev.erase name }

/-- The removal pass: `previousClasses.forEach(...)` over the set as it is
when the pass starts. -/
def removalPass (useNative : Bool) (m : ClassInfo) (r : ReconState) :
    ReconState :=
  r.prev.foldl (removalStep useNative m) r

/-- One step of the add/remove pass: the loose comparison
`value != previousClasses.has(name)` guards the toggle; a truthy value is
added to target and set, a falsy one removed from both. -/
def arStep (useNative : Bool) (acc : ReconState) (e : String × JSVal) :
    ReconState :=
  if looseEqBool e.2 (acc.prev.contains e.1) then acc
  else if truthy e.2 then
    let acc2 := targetAdd useNative acc e.1
    { acc2 with prev := jsSetAdd acc2.prev e.1 }
  else
    let acc2 := targetRemove useNative acc e.1
    { acc2 with prev := acc2.prev.erase e.1 }

/-- The add/remove pass: `for (const name in classInfo)` in key order. -/
def addRemovePass (useNative : Bool) (m : ClassInfo) (r : ReconState) :
    ReconState :=
  m.foldl (arStep useNative) r

/-- The usage check of `classMap`: `!(part instanceof AttributePart) ||
(part instanceof PropertyPart) || part.committer.name !== 'class' ||
part.committer.parts.length > 1`. -/
def badShape (sh : PartShape) : Bool :=
  !sh.isAttributePart || sh.isPropertyPart || sh.committerName != "class" ||
    decide (sh.numParts > 1)

/-- The message of the usage error. -/
def errMsg : String :=
  "The `classMap` directive must be used in the `class` attribute and must be the only part in the attribute."

/-- The result of one successful application: the new site state, the trace
of target `add`/`remove` calls, and the attribute string committed by the
shim (if this application used the shim). -/
structure ApplyOut where
  state : SiteState
  ops : List Op
  committed : Option String
deriving DecidableEq, Repr

/-- `ClassList.commit()`: when `changed`, write the space-joined class string
(via `part.setValue`, since `classMap` only ever constructs the shim from the
part), which becomes the element's class attribute. -/
def shimFinish (st : SiteState) (r : ReconState) : ApplyOut :=
  if r.changed then
    let str := commitString r.shim
    ⟨⟨tokensOf str, st.hasClassList, some r.prev⟩, r.ops, some str⟩
  else ⟨⟨r.attr, st.hasClassList, some r.prev⟩, r.ops, none⟩

/-- One application of the `classMap` directive body to a part.  On first
render the target is the shim constructed from the part (classes empty,
`changed = true`) and the cache entry is created.  On subsequent renders the
target is the native `classList` when the element has one, and otherwise —
exactly as the source's `element.classList || new ClassList(part)` — a shim
constructed again from the *part*, hence seeded empty with `changed = true`
(the `ClassList` constructor's element branch, which would seed from the
current attribute value, is unreachable from `classMap`). -/
def classMap (sh : PartShape) (classInfo : ClassInfo) (st : SiteState) :
    Except String ApplyOut :=
  if badShape sh then .error errMsg
  else
    match st.prevCache with
    | none =>
      let r0 : ReconState := ⟨st.attr, [], true, [], []⟩
      let r2 := addRemovePass false classInfo (removalPass false classInfo r0)
      .ok (shimFinish st r2)
    | some p =>
      if st.hasClassList then
        let r0 : ReconState := ⟨st.attr, [], false, p, []⟩
        let r2 := addRemovePass true classInfo (removalPass true classInfo r0)
        .ok ⟨⟨r2.attr, st.hasClassList, some r2.prev⟩, r2.ops, none⟩
      else
        let r0 : ReconState := ⟨st.attr, [], true, p, []⟩
        let r2 :=
          addRemovePass false classInfo (removalPass false classInfo r0)
        .ok (shimFinish st r2)

/-- Applying a sequence of class maps at one binding site. -/
def applySeq (sh : PartShape) : List ClassInfo → SiteState →
    Except String SiteState
  | [], st => .ok st
  | m :: ms, st =>
    match classMap sh m st with
    | .error e => .error e
    | .ok out => applySeq sh ms out.state

/-- The managed set stored for the site after an application. -/
def managedOf (out : ApplyOut) : List String := out.state.prevCache.getD []

instance {ε α : Type} [DecidableEq ε] [DecidableEq α] :
    DecidableEq (Except ε α) := fun x y =>
  match x, y with
  | .error a, .error c =>
    if h : a = c then isTrue (by rw [h])
    else isFalse (fun hc => h (Except.error.injEq .. ▸ hc))
  | .ok a, .ok c =>
    if h : a = c then isTrue (by rw [h])
    else isFalse (fun hc => h (Except.ok.injEq .. ▸ hc))
  | .error _, .ok _ => isFalse (fun hc => Except.noConfusion hc)
  | .ok _, .error _ => isFalse (fun hc => Except.noConfusion hc)

/-- A well-formed part shape for the directive: a single-part attribute
binding named `class`. -/
def shapeOK : PartShape := ⟨true, false, "class", 1⟩

-- sanity checks of the embedding on concrete runs
example : classMap shapeOK [("foo", JSVal.b true), ("bar", JSVal.b false)]
    ⟨[], true, none⟩ =
    .ok ⟨⟨["foo"], true, some ["foo"]⟩, [Op.add "foo"], some "foo "⟩ := by
  decide

example : classMap shapeOK [("foo", JSVal.b true)]
    ⟨["foo", "baz"], true, some ["foo", "baz"]⟩ =
    .ok ⟨⟨["foo"], true, some ["foo"]⟩, [Op.remove "baz"], none⟩ := by
  decide

example : classMap ⟨true, false, "className", 1⟩ [] ⟨[], true, none⟩ =
    .error errMsg := by decide

/-- The part shape the spec calls a usage violation: anything other than a
sole attribute part named `class` (spec §4.2 preconditions, stated in the
spec's words for comparison against the code's check). -/
def validShapeSpec (sh : PartShape) : Prop :=
  sh.isAttributePart = true ∧ sh.isPropertyPart = false ∧
    sh.committerName = "class" ∧ sh.numParts ≤ 1

theorem badShape_iff_not_valid (sh : PartShape) :
    badShape sh = true ↔ ¬ validShapeSpec sh := by
  simp only [badShape, validShapeSpec, Bool.or_eq_true, Bool.not_eq_true',
    bne_iff_ne, decide_eq_true_eq, not_and_or, Nat.lt_iff_add_one_le,
    Bool.not_eq_true]
  constructor
  · rintro (((h | h) | h) | h)
    · exact Or.inl (by simp [h])
    · exact Or.inr (Or.inl (by simp [h]))
    · exact Or.inr (Or.inr (Or.inl h))
    · exact Or.inr (Or.inr (Or.inr (by omega)))
  · rintro (h | h | h | h)
    · exact Or.inl (Or.inl (Or.inl (by simpa using h)))
    · exact Or.inl (Or.inl (Or.inr (by simpa using h)))
    · exact Or.inl (Or.inr h)
    · exact Or.inr (by omega)

/-- C1: subsequent application, element without a native `classList`,
element classes `external foo` with `foo` untracked (managed set empty);
applying `{foo: false}`.  The source constructs the fallback shim from the
*part* (`new ClassList(part)`), so the shim is seeded empty with
`changed = true`, and the commit writes an empty class string: `external`
is wiped rather than retained.  This contradicts the claim (and the
source's own comment, which says the shim is re-seeded from the current
attribute after first render). -/
theorem classMap_c1_fallback_wipes_untracked :
    classMap shapeOK [("foo", JSVal.b false)]
      ⟨["external", "foo"], false, some []⟩ =
      .ok ⟨⟨[], false, some []⟩, [], some ""⟩ ∧
    "external" ∉ (⟨⟨[], false, some []⟩, [], some ""⟩ : ApplyOut).state.attr := by
  exact ⟨by decide, by decide⟩

/-- C3: non-interference fails on the fallback path.  `external` is on the
element and is not a key of the (only) applied map `{foo: true}`, yet the
second application (no native `classList`) commits a class string built from
an empty shim, removing `external` (and even `foo`). -/
theorem classMap_c3_noninterference_violated :
    classMap shapeOK [("foo", JSVal.b true)]
      ⟨["foo", "external"], false, some ["foo"]⟩ =
      .ok ⟨⟨[], false, some ["foo"]⟩, [], some ""⟩ ∧
    "external" ∉ (⟨⟨[], false, some ["foo"]⟩, [], some ""⟩ : ApplyOut).state.attr := by
  exact ⟨by decide, by decide⟩

/-- C4: idempotence fails on the fallback path.  Applying `{foo: true}`
twice from a fresh site on an element without a native `classList`: the
first application commits `"foo "`, but the second — with an identical map
and a managed set that already matches — commits `""`, an attribute write
that even removes `foo` itself (the fallback shim starts empty with
`changed = true`, and no toggle runs because the map is unchanged). -/
theorem classMap_c4_second_application_mutates :
    classMap shapeOK [("foo", JSVal.b true)] ⟨[], false, none⟩ =
      .ok ⟨⟨["foo"], false, some ["foo"]⟩, [Op.add "foo"], some "foo "⟩ ∧
    classMap shapeOK [("foo", JSVal.b true)]
      ⟨["foo"], false, some ["foo"]⟩ =
      .ok ⟨⟨[], false, some ["foo"]⟩, [], some ""⟩ := by
  exact ⟨by decide, by decide⟩

/-- C2 counterexample: the non-empty string `'0'` is *not* treated as
truthy by the code when the class is not already managed: on a fresh site,
applying `{x: '0'}` leaves `x` absent, because the loose comparison
`'0' != false` coerces `'0'` to `0` and skips the toggle. -/
theorem classMap_c2_counterexample :
    classMap shapeOK [("x", JSVal.s "0")] ⟨[], true, none⟩ =
      .ok ⟨⟨[], true, some []⟩, [], some ""⟩ ∧
    "x" ∉ (⟨⟨[], true, some []⟩, [], some ""⟩ : ApplyOut).state.attr := by
  exact ⟨by decide, by decide⟩

/-- C5 counterexample: the value `2` for an already-managed class has
truthiness (`true`) equal to its membership (`true`), yet the code issues a
(redundant) `classList.add`, because `2 != true` coerces `true` to `1` and
`2 ≠ 1` triggers the toggle. -/
theorem classMap_c5_counterexample :
    classMap shapeOK [("x", JSVal.n 2)] ⟨["x"], true, some ["x"]⟩ =
      .ok ⟨⟨["x"], true, some ["x"]⟩, [Op.add "x"], none⟩ ∧
    (⟨⟨["x"], true, some ["x"]⟩, [Op.add "x"], none⟩ : ApplyOut).ops ≠ [] := by
  exact ⟨by decide, by decide⟩

/-- C6: `classMap` raises the usage error exactly when the binding's shape
is unsupported — not an attribute part, a property binding, an attribute
not named `class`, or more than one part in the attribute — and for a valid
shape no error is raised.  The error is raised before any state is produced
(the embedding's error branch returns no output), matching the source,
where the `throw` precedes every read or write of the cache, the element
and the attribute. -/
theorem classMap_c6_usage_error (sh : PartShape) (m : ClassInfo)
    (st : SiteState) :
    (∃ e, classMap sh m st = .error e) ↔ ¬ validShapeSpec sh := by
  constructor
  · rintro ⟨e, he⟩
    rw [← badShape_iff_not_valid]
    by_contra hbad
    rw [Bool.not_eq_true] at hbad
    unfold classMap at he
    rw [hbad] at he
    simp only [Bool.false_eq_true, if_false] at he
    cases hp : st.prevCache with
    | none => rw [hp] at he; exact Except.noConfusion he
    | some p =>
      rw [hp] at he
      cases hc : st.hasClassList <;> rw [hc] at he <;> simp at he
  · intro hv
    refine ⟨errMsg, ?_⟩
    unfold classMap
    rw [(badShape_iff_not_valid sh).mpr hv]
    simp

/-! ### Basic lemmas about the JS-set and token models -/

theorem contains_iff (l : List String) (x : String) :
    l.contains x = true ↔ x ∈ l :=
  List.elem_iff

theorem bool_eq_of_iff {a b : Bool} (h : a = true ↔ b = true) : a = b := by
  cases a <;> cases b <;> simp_all

theorem mem_jsSetAdd {l : List String} {x y : String} :
    y ∈ jsSetAdd l x ↔ y ∈ l ∨ y = x := by
  by_cases h : x ∈ l <;> simp only [jsSetAdd, h, if_true, if_false,
    List.mem_append, List.mem_singleton]
  constructor
  · exact Or.inl
  · rintro (hy | rfl)
    · exact hy
    · exact h

theorem nodup_jsSetAdd {l : List String} {x : String} (h : l.Nodup) :
    (jsSetAdd l x).Nodup := by
  by_cases hx : x ∈ l <;> simp only [jsSetAdd, hx, if_true, if_false]
  · exact h
  · simp [List.nodup_append, h, hx]

/-- Fold induction: a property preserved by every step holds of the fold. -/
theorem foldl_rec {α β : Type} {P : β → Prop} (step : β → α → β) :
    ∀ (l : List α) (init : β), P init →
      (∀ acc a, a ∈ l → P acc → P (step acc a)) → P (l.foldl step init) := by
  intro l
  induction l with
  | nil => intro init h0 _; exact h0
  | cons a t ih =>
    intro init h0 hstep
    exact ih _ (hstep _ _ (by simp) h0)
      (fun acc b hb hp => hstep _ _ (by simp [hb]) hp)

theorem mem_foldl_jsSetAdd (l : List String) :
    ∀ (acc : List String) (y : String),
      y ∈ l.foldl jsSetAdd acc ↔ y ∈ acc ∨ y ∈ l := by
  induction l with
  | nil => intro acc y; simp
  | cons a t ih =>
    intro acc y
    rw [List.foldl_cons, ih, mem_jsSetAdd]
    constructor
    · rintro ((hy | rfl) | hy)
      · exact Or.inl hy
      · exact Or.inr (by simp)
      · exact Or.inr (by simp [hy])
    · rintro (hy | hy)
      · exact Or.inl (Or.inl hy)
      · rcases List.mem_cons.mp hy with rfl | hy
        · exact Or.inl (Or.inr rfl)
        · exact Or.inr hy

theorem mem_dedupFirst {l : List String} {y : String} :
    y ∈ dedupFirst l ↔ y ∈ l := by
  unfold dedupFirst
  rw [mem_foldl_jsSetAdd]
  simp

theorem nodup_dedupFirst (l : List String) : (dedupFirst l).Nodup :=
  foldl_rec jsSetAdd l [] List.nodup_nil
    (fun acc a _ hp => nodup_jsSetAdd hp)

/-! ### Lemmas about the attribute tokenizer -/

theorem tokSplit_ne_nil (cs : List Char) : tokSplit cs ≠ [] := by
  cases cs with
  | nil => simp [tokSplit]
  | cons c cs' =>
    unfold tokSplit
    cases h : tokSplit cs' with
    | nil => simp
    | cons t ts =>
      by_cases hw : isWS c = true <;> simp [hw]

theorem tokSplit_block {w : List Char} (hw : ∀ c ∈ w, isWS c = false) :
    ∀ rest : List Char, tokSplit (w ++ ' ' :: rest) = w :: tokSplit rest := by
  induction w with
  | nil =>
    intro rest
    cases h : tokSplit rest with
    | nil => exact absurd h (tokSplit_ne_nil rest)
    | cons t ts => simp [tokSplit, h, isWS]
  | cons c w' ih =>
    intro rest
    have hc : isWS c = false := hw c (by simp)
    have hw' : ∀ c' ∈ w', isWS c' = false := fun c' h' => hw c' (by simp [h'])
    have hrec := ih hw' rest
    show tokSplit (c :: (w' ++ ' ' :: rest)) = (c :: w') :: tokSplit rest
    have hstep : tokSplit (c :: (w' ++ ' ' :: rest)) =
        match tokSplit (w' ++ ' ' :: rest) with
        | [] => [[]]
        | t :: ts => if isWS c = true then [] :: t :: ts else (c :: t) :: ts :=
      rfl
    rw [hstep, hrec]
    simp [hc]

theorem commitString_data (l : List String) :
    (commitString l).data = (l.map (fun w => w.data ++ [' '])).join := by
  suffices haux : ∀ (acc : String),
      (l.foldl (fun acc cls => acc ++ cls ++ " ") acc).data =
        acc.data ++ (l.map (fun w => w.data ++ [' '])).join by
    simpa using haux ""
  induction l with
  | nil => intro acc; simp
  | cons w t ih =>
    intro acc
    rw [List.foldl_cons, ih]
    simp [String.data_append]

/-- A usable class token: non-empty and whitespace-free. -/
def tokenOK (s : String) : Prop := s ≠ "" ∧ ∀ c ∈ s.data, isWS c = false

/-- All keys of a class map are usable class tokens (the spec's data-model
invariant: keys are valid class-name tokens). -/
def TokensOK (m : ClassInfo) : Prop := ∀ e ∈ m, tokenOK e.1

/-- The keys of a class map are distinct (a JS object has no duplicate
keys). -/
def KeysNodup (m : ClassInfo) : Prop := (m.map Prod.fst).Nodup

theorem tokSplit_join {l : List String}
    (h : ∀ y ∈ l, ∀ c ∈ (y : String).data, isWS c = false) :
    tokSplit ((l.map (fun w => w.data ++ [' '])).join) =
      l.map String.data ++ [[]] := by
  induction l with
  | nil => simp [tokSplit]
  | cons w t ih =>
    have hw : ∀ c ∈ w.data, isWS c = false := h w (by simp)
    have ht : ∀ y ∈ t, ∀ c ∈ (y : String).data, isWS c = false :=
      fun y hy => h y (by simp [hy])
    simp only [List.map_cons, List.join_cons, List.append_assoc,
      List.singleton_append]
    rw [tokSplit_block hw, ih ht]
    simp

theorem tokensOf_commitString {l : List String}
    (h : ∀ y ∈ l, ∀ c ∈ (y : String).data, isWS c = false) :
    tokensOf (commitString l) = dedupFirst (l.filter (fun t => t != "")) := by
  unfold tokensOf
  rw [commitString_data, tokSplit_join h]
  congr 1
  rw [List.map_append, List.filter_append]
  have hmk : (l.map String.data).map (fun cs => String.mk cs) = l := by
    rw [List.map_map]
    exact List.map_id'' (fun s => by cases s; rfl) l
  rw [hmk]
  simp

theorem mem_tokensOf_commitString {l : List String} {x : String}
    (h : ∀ y ∈ l, ∀ c ∈ (y : String).data, isWS c = false) :
    x ∈ tokensOf (commitString l) ↔ x ∈ l ∧ x ≠ "" := by
  rw [tokensOf_commitString h, mem_dedupFirst, List.mem_filter]
  simp

/-! ### Lemmas about the removal pass -/

/-- The target calls of a trace that are about class `x`. -/
def opsOn (x : String) (l : List Op) : List Op :=
  l.filter (fun o => o.cls == x)

theorem opsOn_append (x : String) (l1 l2 : List Op) :
    opsOn x (l1 ++ l2) = opsOn x l1 ++ opsOn x l2 :=
  List.filter_append _ _

theorem opsOn_add_self (x : String) (l : List Op) :
    opsOn x (l ++ [Op.add x]) = opsOn x l ++ [Op.add x] := by
  rw [opsOn_append]; simp [opsOn, Op.cls]

theorem opsOn_remove_self (x : String) (l : List Op) :
    opsOn x (l ++ [Op.remove x]) = opsOn x l ++ [Op.remove x] := by
  rw [opsOn_append]; simp [opsOn, Op.cls]

theorem opsOn_snoc_ne {x : String} (l : List Op) {o : Op} (h : o.cls ≠ x) :
    opsOn x (l ++ [o]) = opsOn x l := by
  rw [opsOn_append]
  have : (o.cls == x) = false := by simpa using h
  simp [opsOn, this]

theorem removalStep_key_eq {u : Bool} {m : ClassInfo} {acc : ReconState}
    {n : String} (hk : hasKey m n = true) : removalStep u m acc n = acc := by
  simp [removalStep, hk]

theorem removalStep_notkey_prev {u : Bool} {m : ClassInfo} {acc : ReconState}
    {n : String} (hk : hasKey m n = false) :
    (removalStep u m acc n).prev = acc.prev.erase n := by
  cases u <;> simp [removalStep, targetRemove, hk]

theorem removalStep_notkey_ops {u : Bool} {m : ClassInfo} {acc : ReconState}
    {n : String} (hk : hasKey m n = false) :
    (removalStep u m acc n).ops = acc.ops ++ [Op.remove n] := by
  cases u <;> simp [removalStep, targetRemove, hk]

theorem removalFold_prev (u : Bool) (m : ClassInfo) (x : String) :
    ∀ (visit : List String) (acc : ReconState), acc.prev.Nodup →
      ((x ∈ (visit.foldl (removalStep u m) acc).prev ↔
          x ∈ acc.prev ∧ (hasKey m x = true ∨ x ∉ visit)) ∧
        (visit.foldl (removalStep u m) acc).prev.Nodup) := by
  intro visit
  induction visit with
  | nil => intro acc h; exact ⟨by simp, h⟩
  | cons n rest ih =>
    intro acc h
    rw [List.foldl_cons]
    by_cases hk : hasKey m n = true
    · rw [removalStep_key_eq hk]
      rcases ih acc h with ⟨hmem, hnd⟩
      refine ⟨?_, hnd⟩
      rw [hmem]
      by_cases hx : x = n
      · subst hx; simp [hk]
      · simp [List.mem_cons, hx]
    · have hk' : hasKey m n = false := by simpa using hk
      have hnd2 : (removalStep u m acc n).prev.Nodup := by
        rw [removalStep_notkey_prev hk']; exact h.erase n
      rcases ih _ hnd2 with ⟨hmem, hnd⟩
      refine ⟨?_, hnd⟩
      rw [hmem, removalStep_notkey_prev hk']
      by_cases hx : x = n
      · subst hx
        simp [h.mem_erase_iff, hk']
      · rw [List.mem_erase_of_ne hx]
        simp [List.mem_cons, hx]

theorem removalFold_ops_key {u : Bool} {m : ClassInfo} {x : String}
    (hk : hasKey m x = true) :
    ∀ (visit : List String) (acc : ReconState),
      opsOn x ((visit.foldl (removalStep u m) acc).ops) = opsOn x acc.ops := by
  intro visit
  induction visit with
  | nil => intro acc; rfl
  | cons n rest ih =>
    intro acc
    rw [List.foldl_cons]
    by_cases hkn : hasKey m n = true
    · rw [removalStep_key_eq hkn]; exact ih _
    · have hkn' : hasKey m n = false := by simpa using hkn
      have hne : (Op.remove n).cls ≠ x := by
        simp only [Op.cls]
        rintro rfl
        rw [hk] at hkn'
        exact Bool.noConfusion hkn'
      rw [ih, removalStep_notkey_ops hkn', opsOn_snoc_ne _ hne]

theorem removalFold_ops_mono (u : Bool) (m : ClassInfo) (o : Op)
    (visit : List String) (acc : ReconState) (h : o ∈ acc.ops) :
    o ∈ (visit.foldl (removalStep u m) acc).ops := by
  refine foldl_rec (P := fun r => o ∈ r.ops) _ visit acc h ?_
  intro acc' n _ hp
  by_cases hk : hasKey m n = true
  · rw [removalStep_key_eq hk]; exact hp
  · rw [removalStep_notkey_ops (by simpa using hk)]
    exact List.mem_append_left _ hp

theorem removalFold_remove_op {u : Bool} {m : ClassInfo} {x : String}
    (hk : hasKey m x = false) :
    ∀ (visit : List String) (acc : ReconState), x ∈ visit →
      Op.remove x ∈ (visit.foldl (removalStep u m) acc).ops := by
  intro visit
  induction visit with
  | nil => intro acc h; exact absurd h (List.not_mem_nil x)
  | cons n rest ih =>
    intro acc hmem
    rw [List.foldl_cons]
    by_cases hx : x = n
    · subst hx
      refine removalFold_ops_mono u m _ rest _ ?_
      rw [removalStep_notkey_ops hk]
      exact List.mem_append_right _ (by simp)
    · refine ih _ ?_
      rcases List.mem_cons.mp hmem with h | h
      · exact absurd h hx
      · exact h

theorem removalFold_empty (u : Bool) :
    ∀ (visit : List String) (acc : ReconState),
      ((visit.foldl (removalStep u ([] : ClassInfo)) acc).ops =
        acc.ops ++ visit.map Op.remove) ∧
      ((visit.foldl (removalStep u ([] : ClassInfo)) acc).prev =
        visit.foldl (fun q n => q.erase n) acc.prev) := by
  intro visit
  induction visit with
  | nil => intro acc; exact ⟨by simp, rfl⟩
  | cons n rest ih =>
    intro acc
    have hk : hasKey ([] : ClassInfo) n = false := rfl
    rw [List.foldl_cons, List.foldl_cons]
    rcases ih (removalStep u [] acc n) with ⟨ho, hp⟩
    constructor
    · rw [ho, removalStep_notkey_ops hk]
      simp
    · rw [hp, removalStep_notkey_prev hk]

theorem eraseFold_mem (x : String) :
    ∀ (visit q : List String), q.Nodup →
      ((x ∈ visit.foldl (fun q n => q.erase n) q ↔ x ∈ q ∧ x ∉ visit) ∧
        (visit.foldl (fun q n => q.erase n) q).Nodup) := by
  intro visit
  induction visit with
  | nil => intro q h; exact ⟨by simp, h⟩
  | cons n rest ih =>
    intro q h
    rw [List.foldl_cons]
    rcases ih (q.erase n) (h.erase n) with ⟨hmem, hnd⟩
    refine ⟨?_, hnd⟩
    rw [hmem]
    by_cases hx : x = n
    · subst hx; simp [h.mem_erase_iff]
    · rw [List.mem_erase_of_ne hx]
      simp [List.mem_cons, hx]

/-! ### Lemmas about the add/remove pass -/

theorem arStep_eq_skip {u : Bool} {acc : ReconState} {e : String × JSVal}
    (hg : looseEqBool e.2 (acc.prev.contains e.1) = true) :
    arStep u acc e = acc := by
  unfold arStep
  rw [hg]
  simp

theorem arStep_prev_add {u : Bool} {acc : ReconState} {e : String × JSVal}
    (hg : looseEqBool e.2 (acc.prev.contains e.1) = false)
    (ht : truthy e.2 = true) :
    (arStep u acc e).prev = jsSetAdd acc.prev e.1 := by
  unfold arStep
  rw [hg, ht]
  cases u <;> simp [targetAdd]

theorem arStep_ops_add {u : Bool} {acc : ReconState} {e : String × JSVal}
    (hg : looseEqBool e.2 (acc.prev.contains e.1) = false)
    (ht : truthy e.2 = true) :
    (arStep u acc e).ops = acc.ops ++ [Op.add e.1] := by
  unfold arStep
  rw [hg, ht]
  cases u <;> simp [targetAdd]

theorem arStep_prev_remove {u : Bool} {acc : ReconState} {e : String × JSVal}
    (hg : looseEqBool e.2 (acc.prev.contains e.1) = false)
    (ht : truthy e.2 = false) :
    (arStep u acc e).prev = acc.prev.erase e.1 := by
  unfold arStep
  rw [hg, ht]
  cases u <;> simp [targetRemove]

theorem arStep_ops_remove {u : Bool} {acc : ReconState} {e : String × JSVal}
    (hg : looseEqBool e.2 (acc.prev.contains e.1) = false)
    (ht : truthy e.2 = false) :
    (arStep u acc e).ops = acc.ops ++ [Op.remove e.1] := by
  unfold arStep
  rw [hg, ht]
  cases u <;> simp [targetRemove]

theorem arStep_nodup {u : Bool} {acc : ReconState} {e : String × JSVal}
    (h : acc.prev.Nodup) : (arStep u acc e).prev.Nodup := by
  by_cases hg : looseEqBool e.2 (acc.prev.contains e.1) = true
  · rw [arStep_eq_skip hg]; exact h
  · have hg' : looseEqBool e.2 (acc.prev.contains e.1) = false := by
      simpa using hg
    by_cases ht : truthy e.2 = true
    · rw [arStep_prev_add hg' ht]; exact nodup_jsSetAdd h
    · rw [arStep_prev_remove hg' (by simpa using ht)]; exact h.erase _

theorem arStep_ne {u : Bool} {acc : ReconState} {e : String × JSVal}
    {x : String} (hne : e.1 ≠ x) :
    ((x ∈ (arStep u acc e).prev ↔ x ∈ acc.prev) ∧
      opsOn x (arStep u acc e).ops = opsOn x acc.ops) := by
  have hxe : x ≠ e.1 := fun h => hne h.symm
  by_cases hg : looseEqBool e.2 (acc.prev.contains e.1) = true
  · rw [arStep_eq_skip hg]; exact ⟨Iff.rfl, rfl⟩
  · have hg' : looseEqBool e.2 (acc.prev.contains e.1) = false := by
      simpa using hg
    by_cases ht : truthy e.2 = true
    · rw [arStep_prev_add hg' ht, arStep_ops_add hg' ht]
      constructor
      · rw [mem_jsSetAdd]
        constructor
        · rintro (h | rfl)
          · exact h
          · exact absurd rfl hxe
        · exact Or.inl
      · exact opsOn_snoc_ne _ (by simpa [Op.cls] using hne)
    · have ht' : truthy e.2 = false := by simpa using ht
      rw [arStep_prev_remove hg' ht', arStep_ops_remove hg' ht']
      exact ⟨List.mem_erase_of_ne hxe,
        opsOn_snoc_ne _ (by simpa [Op.cls] using hne)⟩

theorem arStep_contains_ne {u : Bool} {acc : ReconState} {e : String × JSVal}
    {x : String} (hne : e.1 ≠ x) :
    (arStep u acc e).prev.contains x = acc.prev.contains x :=
  bool_eq_of_iff (by rw [contains_iff, contains_iff]; exact (arStep_ne hne).1)

theorem arFold_notkey (u : Bool) (x : String) :
    ∀ (entries : ClassInfo) (acc : ReconState),
      (∀ e ∈ entries, e.1 ≠ x) →
      ((x ∈ (entries.foldl (arStep u) acc).prev ↔ x ∈ acc.prev) ∧
        opsOn x ((entries.foldl (arStep u) acc).ops) = opsOn x acc.ops) := by
  intro entries
  induction entries with
  | nil => intro acc _; exact ⟨Iff.rfl, rfl⟩
  | cons e rest ih =>
    intro acc hne
    rw [List.foldl_cons]
    rcases @arStep_ne u acc e x (hne e (by simp)) with ⟨h1, h2⟩
    rcases ih (arStep u acc e) (fun e' h' => hne e' (by simp [h'])) with
      ⟨h3, h4⟩
    exact ⟨h3.trans h1, h4.trans h2⟩

theorem arFold_ops_mono (u : Bool) (o : Op) (entries : ClassInfo)
    (acc : ReconState) (h : o ∈ acc.ops) :
    o ∈ (entries.foldl (arStep u) acc).ops := by
  refine foldl_rec (P := fun r => o ∈ r.ops) _ entries acc h ?_
  intro acc' e _ hp
  by_cases hg : looseEqBool e.2 (acc'.prev.contains e.1) = true
  · rw [arStep_eq_skip hg]; exact hp
  · have hg' : looseEqBool e.2 (acc'.prev.contains e.1) = false := by
      simpa using hg
    by_cases ht : truthy e.2 = true
    · rw [arStep_ops_add hg' ht]; exact List.mem_append_left _ hp
    · rw [arStep_ops_remove hg' (by simpa using ht)]
      exact List.mem_append_left _ hp

theorem arFold_key (u : Bool) :
    ∀ (entries : ClassInfo) (x : String) (v : JSVal) (acc : ReconState),
      (entries.map Prod.fst).Nodup → (x, v) ∈ entries → acc.prev.Nodup →
      ((x ∈ (entries.foldl (arStep u) acc).prev ↔
          (if looseEqBool v (acc.prev.contains x) = true then x ∈ acc.prev
            else truthy v = true)) ∧
        opsOn x ((entries.foldl (arStep u) acc).ops) =
          opsOn x acc.ops ++
            (if looseEqBool v (acc.prev.contains x) = true then []
              else [if truthy v = true then Op.add x else Op.remove x])) := by
  intro entries
  induction entries with
  | nil => intro x v acc _ hmem _; exact absurd hmem (List.not_mem_nil _)
  | cons e rest ih =>
    intro x v acc hnd hmem hpnd
    have hnd1 : e.1 ∉ rest.map Prod.fst := by
      rw [List.map_cons, List.nodup_cons] at hnd
      exact hnd.1
    have hnd2 : (rest.map Prod.fst).Nodup := by
      rw [List.map_cons, List.nodup_cons] at hnd
      exact hnd.2
    rw [List.foldl_cons]
    rcases List.mem_cons.mp hmem with heq | hmem'
    · -- the entry for x is the head
      have he1 : e.1 = x := by rw [← heq]
      have he2 : e.2 = v := by rw [← heq]
      have hrest_ne : ∀ e' ∈ rest, e'.1 ≠ x := by
        intro e' h' hx
        exact hnd1 (he1 ▸ hx ▸ List.mem_map_of_mem Prod.fst h')
      by_cases hg : looseEqBool v (acc.prev.contains x) = true
      · rw [arStep_eq_skip (by rw [he1, he2]; exact hg)]
        rcases arFold_notkey u x rest acc hrest_ne with ⟨h1, h2⟩
        rw [hg] at *
        simp only [if_true]
        exact ⟨h1, by rw [h2, List.append_nil]⟩
      · have hg' : looseEqBool v (acc.prev.contains x) = false := by
          simpa using hg
        rw [hg']
        simp only [Bool.false_eq_true, if_false]
        by_cases ht : truthy v = true
        · have hprev : (arStep u acc e).prev = jsSetAdd acc.prev x :=
            he1 ▸ arStep_prev_add (by rw [he1, he2]; exact hg')
              (by rw [he2]; exact ht)
          have hops : (arStep u acc e).ops = acc.ops ++ [Op.add x] :=
            he1 ▸ arStep_ops_add (by rw [he1, he2]; exact hg')
              (by rw [he2]; exact ht)
          rcases arFold_notkey u x rest (arStep u acc e) hrest_ne with ⟨h1, h2⟩
          constructor
          · rw [h1, hprev, mem_jsSetAdd]
            simp [ht]
          · rw [h2, hops, opsOn_add_self, ht, if_pos rfl]
        · have ht' : truthy v = false := by simpa using ht
          have hprev : (arStep u acc e).prev = acc.prev.erase x :=
            he1 ▸ arStep_prev_remove (by rw [he1, he2]; exact hg')
              (by rw [he2]; exact ht')
          have hops : (arStep u acc e).ops = acc.ops ++ [Op.remove x] :=
            he1 ▸ arStep_ops_remove (by rw [he1, he2]; exact hg')
              (by rw [he2]; exact ht')
          rcases arFold_notkey u x rest (arStep u acc e) hrest_ne with ⟨h1, h2⟩
          constructor
          · rw [h1, hprev, hpnd.mem_erase_iff]
            simp [ht']
          · rw [h2, hops, opsOn_remove_self, ht', if_neg (by simp)]
    · -- the entry for x is further down; the head is a different key
      have hxk : x ∈ rest.map Prod.fst := List.mem_map_of_mem Prod.fst hmem'
      have hex : e.1 ≠ x := fun h => hnd1 (h ▸ hxk)
      rcases @arStep_ne u acc e x hex with ⟨h1, h2⟩
      have hc1 := @arStep_contains_ne u acc e x hex
      rcases ih x v (arStep u acc e) hnd2 hmem' (arStep_nodup hpnd) with
        ⟨h3, h4⟩
      rw [hc1] at h3 h4
      constructor
      · rw [h3]
        by_cases hgg : looseEqBool v (acc.prev.contains x) = true <;>
          simp [hgg, h1]
      · rw [h4, h2]

/-! ### Invariants preserved by both passes -/

theorem hasKey_of_mem {m : ClassInfo} {e : String × JSVal} (h : e ∈ m) :
    hasKey m e.1 = true := by
  simp only [hasKey, List.any_eq_true]
  exact ⟨e, h, by simp⟩

theorem removalStep_notkey_false {m : ClassInfo} {acc : ReconState}
    {n : String} (hk : hasKey m n = false) :
    removalStep false m acc n =
      ⟨acc.attr, acc.shim.erase n, true, acc.prev.erase n,
        acc.ops ++ [Op.remove n]⟩ := by
  unfold removalStep targetRemove
  rw [hk]
  simp

theorem removalStep_notkey_true {m : ClassInfo} {acc : ReconState}
    {n : String} (hk : hasKey m n = false) :
    removalStep true m acc n =
      ⟨acc.attr.erase n, acc.shim, acc.changed, acc.prev.erase n,
        acc.ops ++ [Op.remove n]⟩ := by
  unfold removalStep targetRemove
  rw [hk]
  simp

theorem arStep_add_false {acc : ReconState} {e : String × JSVal}
    (hg : looseEqBool e.2 (acc.prev.contains e.1) = false)
    (ht : truthy e.2 = true) :
    arStep false acc e =
      ⟨acc.attr, jsSetAdd acc.shim e.1, true, jsSetAdd acc.prev e.1,
        acc.ops ++ [Op.add e.1]⟩ := by
  unfold arStep targetAdd
  rw [hg, ht]
  simp

theorem arStep_add_true {acc : ReconState} {e : String × JSVal}
    (hg : looseEqBool e.2 (acc.prev.contains e.1) = false)
    (ht : truthy e.2 = true) :
    arStep true acc e =
      ⟨jsSetAdd acc.attr e.1, acc.shim, acc.changed, jsSetAdd acc.prev e.1,
        acc.ops ++ [Op.add e.1]⟩ := by
  unfold arStep targetAdd
  rw [hg, ht]
  simp

theorem arStep_remove_false {acc : ReconState} {e : String × JSVal}
    (hg : looseEqBool e.2 (acc.prev.contains e.1) = false)
    (ht : truthy e.2 = false) :
    arStep false acc e =
      ⟨acc.attr, acc.shim.erase e.1, true, acc.prev.erase e.1,
        acc.ops ++ [Op.remove e.1]⟩ := by
  unfold arStep targetRemove
  rw [hg, ht]
  simp

theorem arStep_remove_true {acc : ReconState} {e : String × JSVal}
    (hg : looseEqBool e.2 (acc.prev.contains e.1) = false)
    (ht : truthy e.2 = false) :
    arStep true acc e =
      ⟨acc.attr.erase e.1, acc.shim, acc.changed, acc.prev.erase e.1,
        acc.ops ++ [Op.remove e.1]⟩ := by
  unfold arStep targetRemove
  rw [hg, ht]
  simp

/-- Case analysis on an `arStep`: it either leaves the state unchanged or
has one of the four add/remove record shapes. -/
theorem arStep_cases (u : Bool) (acc : ReconState) (e : String × JSVal) :
    arStep u acc e = acc ∨
    (truthy e.2 = true ∧ arStep u acc e =
      (if u then
        ⟨jsSetAdd acc.attr e.1, acc.shim, acc.changed, jsSetAdd acc.prev e.1,
          acc.ops ++ [Op.add e.1]⟩
        else
        ⟨acc.attr, jsSetAdd acc.shim e.1, true, jsSetAdd acc.prev e.1,
          acc.ops ++ [Op.add e.1]⟩)) ∨
    (truthy e.2 = false ∧ arStep u acc e =
      (if u then
        ⟨acc.attr.erase e.1, acc.shim, acc.changed, acc.prev.erase e.1,
          acc.ops ++ [Op.remove e.1]⟩
        else
        ⟨acc.attr, acc.shim.erase e.1, true, acc.prev.erase e.1,
          acc.ops ++ [Op.remove e.1]⟩)) := by
  by_cases hg : looseEqBool e.2 (acc.prev.contains e.1) = true
  · exact Or.inl (arStep_eq_skip hg)
  · have hg' : looseEqBool e.2 (acc.prev.contains e.1) = false := by
      simpa using hg
    by_cases ht : truthy e.2 = true
    · refine Or.inr (Or.inl ⟨ht, ?_⟩)
      cases u
      · simp only [if_neg (Bool.false_ne_true)]
        exact arStep_add_false hg' ht
      · simp only [if_pos rfl]
        exact arStep_add_true hg' ht
    · have ht' : truthy e.2 = false := by simpa using ht
      refine Or.inr (Or.inr ⟨ht', ?_⟩)
      cases u
      · simp only [if_neg (Bool.false_ne_true)]
        exact arStep_remove_false hg' ht'
      · simp only [if_pos rfl]
        exact arStep_remove_true hg' ht'

/-- Case analysis on a `removalStep`. -/
theorem removalStep_cases (u : Bool) (m : ClassInfo) (acc : ReconState)
    (n : String) :
    removalStep u m acc n = acc ∨
    removalStep u m acc n =
      (if u then
        ⟨acc.attr.erase n, acc.shim, acc.changed, acc.prev.erase n,
          acc.ops ++ [Op.remove n]⟩
        else
        ⟨acc.attr, acc.shim.erase n, true, acc.prev.erase n,
          acc.ops ++ [Op.remove n]⟩) := by
  by_cases hk : hasKey m n = true
  · exact Or.inl (removalStep_key_eq hk)
  · have hk' : hasKey m n = false := by simpa using hk
    refine Or.inr ?_
    cases u
    · simp only [if_neg (Bool.false_ne_true)]
      exact removalStep_notkey_false hk'
    · simp only [if_pos rfl]
      exact removalStep_notkey_true hk'

/-- The shim's class set stays inside the working managed set (with both
duplicate-free): true initially on the fallback path (shim empty) and
preserved by every paired target/set mutation. -/
def ShimSub (r : ReconState) : Prop :=
  (∀ y ∈ r.shim, y ∈ r.prev) ∧ r.shim.Nodup ∧ r.prev.Nodup

/-- The element's token set stays inside the working managed set (native
path). -/
def AttrSub (r : ReconState) : Prop :=
  (∀ y ∈ r.attr, y ∈ r.prev) ∧ r.attr.Nodup ∧ r.prev.Nodup

theorem shimSub_pair {sh pr : List String} {n : String}
    (hsub : ∀ y ∈ sh, y ∈ pr) (hshnd : sh.Nodup) (hprnd : pr.Nodup) :
    (∀ y ∈ sh.erase n, y ∈ pr.erase n) ∧ (sh.erase n).Nodup ∧
      (pr.erase n).Nodup := by
  refine ⟨?_, hshnd.erase n, hprnd.erase n⟩
  intro y hy
  rcases (hshnd.mem_erase_iff).mp hy with ⟨hne, hmem⟩
  exact (List.mem_erase_of_ne hne).mpr (hsub y hmem)

theorem shimSub_add {sh pr : List String} {n : String}
    (hsub : ∀ y ∈ sh, y ∈ pr) (hshnd : sh.Nodup) (hprnd : pr.Nodup) :
    (∀ y ∈ jsSetAdd sh n, y ∈ jsSetAdd pr n) ∧ (jsSetAdd sh n).Nodup ∧
      (jsSetAdd pr n).Nodup := by
  refine ⟨?_, nodup_jsSetAdd hshnd, nodup_jsSetAdd hprnd⟩
  intro y hy
  rcases mem_jsSetAdd.mp hy with hmem | rfl
  · exact mem_jsSetAdd.mpr (Or.inl (hsub y hmem))
  · exact mem_jsSetAdd.mpr (Or.inr rfl)

theorem removalFold_shimSub (m : ClassInfo) (visit : List String)
    (acc : ReconState) (h : ShimSub acc) :
    ShimSub (visit.foldl (removalStep false m) acc) := by
  refine foldl_rec _ visit acc h ?_
  intro acc' n _ hp
  rcases removalStep_cases false m acc' n with heq | heq <;> rw [heq]
  · exact hp
  · simp only [if_neg (Bool.false_ne_true)]
    exact shimSub_pair hp.1 hp.2.1 hp.2.2

theorem arFold_shimSub (entries : ClassInfo) (acc : ReconState)
    (h : ShimSub acc) : ShimSub (entries.foldl (arStep false) acc) := by
  refine foldl_rec _ entries acc h ?_
  intro acc' e _ hp
  rcases arStep_cases false acc' e with heq | ⟨_, heq⟩ | ⟨_, heq⟩ <;>
    rw [heq] <;> try exact hp
  · simp only [if_neg (Bool.false_ne_true)]
    exact shimSub_add hp.1 hp.2.1 hp.2.2
  · simp only [if_neg (Bool.false_ne_true)]
    exact shimSub_pair hp.1 hp.2.1 hp.2.2

theorem removalFold_attrSub (m : ClassInfo) (visit : List String)
    (acc : ReconState) (h : AttrSub acc) :
    AttrSub (visit.foldl (removalStep true m) acc) := by
  refine foldl_rec _ visit acc h ?_
  intro acc' n _ hp
  rcases removalStep_cases true m acc' n with heq | heq <;> rw [heq]
  · exact hp
  · simp only [if_pos rfl]
    exact shimSub_pair hp.1 hp.2.1 hp.2.2

theorem arFold_attrSub (entries : ClassInfo) (acc : ReconState)
    (h : AttrSub acc) : AttrSub (entries.foldl (arStep true) acc) := by
  refine foldl_rec _ entries acc h ?_
  intro acc' e _ hp
  rcases arStep_cases true acc' e with heq | ⟨_, heq⟩ | ⟨_, heq⟩ <;>
    rw [heq] <;> try exact hp
  · simp only [if_pos rfl]
    exact shimSub_add hp.1 hp.2.1 hp.2.2
  · simp only [if_pos rfl]
    exact shimSub_pair hp.1 hp.2.1 hp.2.2

theorem arFold_allKeys (u : Bool) (m : ClassInfo) (acc : ReconState)
    (h : ∀ y ∈ acc.prev, hasKey m y = true) :
    ∀ y ∈ (m.foldl (arStep u) acc).prev, hasKey m y = true := by
  refine foldl_rec (P := fun r => ∀ y ∈ r.prev, hasKey m y = true)
    _ m acc h ?_
  intro acc' e he hp
  rcases arStep_cases u acc' e with heq | ⟨_, heq⟩ | ⟨_, heq⟩ <;> rw [heq]
  · exact hp
  · cases u <;> simp only [if_pos rfl, if_neg (Bool.false_ne_true)] <;>
      intro y hy <;> rcases mem_jsSetAdd.mp hy with hmem | rfl
    · exact hp y hmem
    · exact hasKey_of_mem he
    · exact hp y hmem
    · exact hasKey_of_mem he
  · cases u <;> simp only [if_pos rfl, if_neg (Bool.false_ne_true)] <;>
      intro y hy <;> exact hp y (List.mem_of_mem_erase hy)

theorem removalFold_shimTok (m : ClassInfo) (visit : List String)
    (acc : ReconState) (h : ∀ y ∈ acc.shim, tokenOK y) :
    ∀ y ∈ (visit.foldl (removalStep false m) acc).shim, tokenOK y := by
  refine foldl_rec (P := fun r => ∀ y ∈ r.shim, tokenOK y) _ visit acc h ?_
  intro acc' n _ hp
  rcases removalStep_cases false m acc' n with heq | heq <;> rw [heq]
  · exact hp
  · simp only [if_neg (Bool.false_ne_true)]
    intro y hy
    exact hp y (List.mem_of_mem_erase hy)

theorem arFold_shimTok {m : ClassInfo} (htok : TokensOK m)
    (acc : ReconState) (h : ∀ y ∈ acc.shim, tokenOK y) :
    ∀ y ∈ (m.foldl (arStep false) acc).shim, tokenOK y := by
  refine foldl_rec (P := fun r => ∀ y ∈ r.shim, tokenOK y) _ m acc h ?_
  intro acc' e he hp
  rcases arStep_cases false acc' e with heq | ⟨_, heq⟩ | ⟨_, heq⟩ <;>
    rw [heq] <;> try simp only [if_neg (Bool.false_ne_true)]
  · exact hp
  · intro y hy
    rcases mem_jsSetAdd.mp hy with hmem | rfl
    · exact hp y hmem
    · exact htok e he
  · intro y hy
    exact hp y (List.mem_of_mem_erase hy)

theorem removalFold_shimPrevEq (m : ClassInfo) (visit : List String)
    (acc : ReconState) (h : acc.shim = acc.prev) :
    (visit.foldl (removalStep false m) acc).shim =
      (visit.foldl (removalStep false m) acc).prev := by
  refine foldl_rec (P := fun r => r.shim = r.prev) _ visit acc h ?_
  intro acc' n _ hp
  rcases removalStep_cases false m acc' n with heq | heq <;> rw [heq]
  · exact hp
  · simp only [if_neg (Bool.false_ne_true)]
    show acc'.shim.erase n = acc'.prev.erase n
    rw [hp]

theorem arFold_shimPrevEq (entries : ClassInfo) (acc : ReconState)
    (h : acc.shim = acc.prev) :
    (entries.foldl (arStep false) acc).shim =
      (entries.foldl (arStep false) acc).prev := by
  refine foldl_rec (P := fun r => r.shim = r.prev) _ entries acc h ?_
  intro acc' e _ hp
  rcases arStep_cases false acc' e with heq | ⟨_, heq⟩ | ⟨_, heq⟩ <;>
    rw [heq] <;> try simp only [if_neg (Bool.false_ne_true)]
  · exact hp
  · show jsSetAdd acc'.shim e.1 = jsSetAdd acc'.prev e.1
    rw [hp]
  · show acc'.shim.erase e.1 = acc'.prev.erase e.1
    rw [hp]

theorem removalFold_changed (u : Bool) (m : ClassInfo) (visit : List String)
    (acc : ReconState) (h : acc.changed = true) :
    (visit.foldl (removalStep u m) acc).changed = true := by
  refine foldl_rec (P := fun r => r.changed = true) _ visit acc h ?_
  intro acc' n _ hp
  rcases removalStep_cases u m acc' n with heq | heq <;> rw [heq]
  · exact hp
  · cases u <;> simp [hp]

theorem arFold_changed (u : Bool) (entries : ClassInfo) (acc : ReconState)
    (h : acc.changed = true) :
    (entries.foldl (arStep u) acc).changed = true := by
  refine foldl_rec (P := fun r => r.changed = true) _ entries acc h ?_
  intro acc' e _ hp
  rcases arStep_cases u acc' e with heq | ⟨_, heq⟩ | ⟨_, heq⟩ <;> rw [heq] <;>
    cases u <;> simp [hp]

/-! ### Per-application lemmas about `classMap` -/

theorem removalPass_eq (u : Bool) (m : ClassInfo) (r : ReconState) :
    removalPass u m r = r.prev.foldl (removalStep u m) r := rfl

theorem addRemovePass_eq (u : Bool) (m : ClassInfo) (r : ReconState) :
    addRemovePass u m r = m.foldl (arStep u) r := rfl

theorem not_hasKey_ne {m : ClassInfo} {x : String} (h : hasKey m x = false) :
    ∀ e ∈ m, e.1 ≠ x := by
  intro e he hx
  have hk := hasKey_of_mem he
  rw [hx, h] at hk
  exact Bool.noConfusion hk

theorem falsy_toNum {v : JSVal} (h : truthy v = false) : jsToNum v = some 0 := by
  cases v with
  | s str =>
    have : str = "" := by simpa [truthy] using h
    subst this
    rfl
  | b bb =>
    have : bb = false := by simpa [truthy] using h
    subst this
    rfl
  | n k =>
    have : k = 0 := by simpa [truthy] using h
    subst this
    rfl

theorem removalPass_mem (u : Bool) (m : ClassInfo) (r : ReconState)
    (hnd : r.prev.Nodup) (x : String) :
    x ∈ (removalPass u m r).prev ↔ x ∈ r.prev ∧ hasKey m x = true := by
  rw [removalPass_eq]
  rw [(removalFold_prev u m x r.prev r hnd).1]
  constructor
  · rintro ⟨h1, h2 | h2⟩
    · exact ⟨h1, h2⟩
    · exact absurd h1 h2
  · rintro ⟨h1, h2⟩
    exact ⟨h1, Or.inl h2⟩

theorem removalPass_nodup (u : Bool) (m : ClassInfo) (r : ReconState)
    (hnd : r.prev.Nodup) : (removalPass u m r).prev.Nodup := by
  rw [removalPass_eq]
  exact (removalFold_prev u m "" r.prev r hnd).2

theorem removalPass_contains_key (u : Bool) (m : ClassInfo) (r : ReconState)
    (hnd : r.prev.Nodup) {x : String} (hk : hasKey m x = true) :
    (removalPass u m r).prev.contains x = r.prev.contains x := by
  refine bool_eq_of_iff ?_
  rw [contains_iff, contains_iff, removalPass_mem u m r hnd x]
  exact ⟨fun h => h.1, fun h => ⟨h, hk⟩⟩

/-- The three execution shapes of a successful application. -/
theorem classMap_run_fresh {sh : PartShape} (m : ClassInfo) {st : SiteState}
    (hsh : badShape sh = false) (hp : st.prevCache = none) :
    classMap sh m st =
      .ok (shimFinish st
        (addRemovePass false m
          (removalPass false m ⟨st.attr, [], true, [], []⟩))) := by
  unfold classMap
  rw [hsh, hp]
  rfl

theorem classMap_run_native {sh : PartShape} (m : ClassInfo) {st : SiteState}
    {p : List String} (hsh : badShape sh = false)
    (hp : st.prevCache = some p) (hcl : st.hasClassList = true) :
    classMap sh m st =
      .ok ⟨⟨(addRemovePass true m
              (removalPass true m ⟨st.attr, [], false, p, []⟩)).attr,
            st.hasClassList,
            some (addRemovePass true m
              (removalPass true m ⟨st.attr, [], false, p, []⟩)).prev⟩,
          (addRemovePass true m
            (removalPass true m ⟨st.attr, [], false, p, []⟩)).ops, none⟩ := by
  unfold classMap
  rw [hsh, hp, hcl]
  rfl

theorem classMap_run_fallback {sh : PartShape} (m : ClassInfo) {st : SiteState}
    {p : List String} (hsh : badShape sh = false)
    (hp : st.prevCache = some p) (hcl : st.hasClassList = false) :
    classMap sh m st =
      .ok (shimFinish st
        (addRemovePass false m
          (removalPass false m ⟨st.attr, [], true, p, []⟩))) := by
  unfold classMap
  rw [hsh, hp, hcl]
  rfl

theorem shimFinish_changed {st : SiteState} {r : ReconState}
    (h : r.changed = true) :
    shimFinish st r =
      ⟨⟨tokensOf (commitString r.shim), st.hasClassList, some r.prev⟩,
        r.ops, some (commitString r.shim)⟩ := by
  unfold shimFinish
  rw [h]
  rfl

theorem shimRun_changed (m : ClassInfo) (attr0 p : List String) :
    (addRemovePass false m
      (removalPass false m ⟨attr0, [], true, p, []⟩)).changed = true := by
  rw [addRemovePass_eq]
  refine arFold_changed false m _ ?_
  rw [removalPass_eq]
  exact removalFold_changed false m _ _ rfl

theorem nodup_tokensOf (s : String) : (tokensOf s).Nodup :=
  nodup_dedupFirst _

/-- The site invariant maintained across applications: whenever the cache
entry exists, it is duplicate-free, the element's token set is
duplicate-free, and every element token is managed. -/
def SiteInv (st : SiteState) : Prop :=
  ∀ q, st.prevCache = some q →
    q.Nodup ∧ st.attr.Nodup ∧ ∀ y ∈ st.attr, y ∈ q

/-- After any successful application (with duplicate-free cache), the stored
managed set exists and contains only keys of the applied map. -/
theorem managed_keys_of_ok {sh : PartShape} {m : ClassInfo} {st : SiteState}
    {out : ApplyOut} (hsh : badShape sh = false)
    (hnd : ∀ p, st.prevCache = some p → p.Nodup)
    (happ : classMap sh m st = .ok out) :
    ∃ q, out.state.prevCache = some q ∧ q.Nodup ∧
      ∀ y ∈ q, hasKey m y = true := by
  have main : ∀ (u : Bool) (p : List String), p.Nodup →
      ∀ (a0 : List String) (c0 : Bool),
      ((addRemovePass u m
          (removalPass u m ⟨a0, [], c0, p, []⟩)).prev.Nodup ∧
        ∀ y ∈ (addRemovePass u m
          (removalPass u m ⟨a0, [], c0, p, []⟩)).prev, hasKey m y = true) := by
    intro u p hpn a0 c0
    have h1 := removalPass_mem u m (⟨a0, [], c0, p, []⟩ : ReconState) hpn
    have h2 := removalPass_nodup u m (⟨a0, [], c0, p, []⟩ : ReconState) hpn
    constructor
    · rw [addRemovePass_eq]
      exact foldl_rec (P := fun r : ReconState => r.prev.Nodup) _ m _ h2
        (fun acc e _ hp => arStep_nodup hp)
    · rw [addRemovePass_eq]
      refine arFold_allKeys u m _ ?_
      intro y hy
      exact ((h1 y).mp hy).2
  cases hp : st.prevCache with
  | none =>
    rw [classMap_run_fresh m hsh hp,
      shimFinish_changed (shimRun_changed m st.attr [])] at happ
    rcases main false [] List.nodup_nil st.attr true with ⟨hnd2, hkeys⟩
    injection happ with happ'
    rw [← happ']
    exact ⟨_, rfl, hnd2, hkeys⟩
  | some p =>
    have hpn := hnd p hp
    cases hcl : st.hasClassList with
    | true =>
      rw [classMap_run_native m hsh hp hcl] at happ
      rcases main true p hpn st.attr false with ⟨hnd2, hkeys⟩
      injection happ with happ'
      rw [← happ']
      exact ⟨_, rfl, hnd2, hkeys⟩
    | false =>
      rw [classMap_run_fallback m hsh hp hcl,
        shimFinish_changed (shimRun_changed m st.attr p)] at happ
      rcases main false p hpn st.attr true with ⟨hnd2, hkeys⟩
      injection happ with happ'
      rw [← happ']
      exact ⟨_, rfl, hnd2, hkeys⟩

/-- One successful application maintains the site invariant. -/
theorem siteInv_step {sh : PartShape} {m : ClassInfo} {st : SiteState}
    {out : ApplyOut} (hsh : badShape sh = false) (htok : TokensOK m)
    (hinv : SiteInv st) (happ : classMap sh m st = .ok out) :
    SiteInv out.state := by
  have shimCase : ∀ (p : List String), p.Nodup →
      (∀ y ∈ tokensOf (commitString (addRemovePass false m
          (removalPass false m ⟨st.attr, [], true, p, []⟩)).shim),
        y ∈ (addRemovePass false m
          (removalPass false m ⟨st.attr, [], true, p, []⟩)).prev) ∧
      (addRemovePass false m
        (removalPass false m ⟨st.attr, [], true, p, []⟩)).prev.Nodup := by
    intro p hpn
    have hsub : ShimSub (addRemovePass false m
        (removalPass false m ⟨st.attr, [], true, p, []⟩)) := by
      rw [addRemovePass_eq]
      refine arFold_shimSub m _ ?_
      rw [removalPass_eq]
      refine removalFold_shimSub m _ _ ?_
      exact ⟨fun y hy => absurd hy (List.not_mem_nil y), List.nodup_nil, hpn⟩
    have htoks : ∀ y ∈ (addRemovePass false m
        (removalPass false m ⟨st.attr, [], true, p, []⟩)).shim, tokenOK y := by
      rw [addRemovePass_eq]
      refine arFold_shimTok htok _ ?_
      rw [removalPass_eq]
      refine removalFold_shimTok m _ _ ?_
      exact fun y hy => absurd hy (List.not_mem_nil y)
    constructor
    · intro y hy
      have hmem :=
        (mem_tokensOf_commitString (fun z hz => (htoks z hz).2)).mp hy
      exact hsub.1 y hmem.1
    · exact hsub.2.2
  cases hp : st.prevCache with
  | none =>
    rw [classMap_run_fresh m hsh hp,
      shimFinish_changed (shimRun_changed m st.attr [])] at happ
    injection happ with happ'
    rw [← happ']
    intro q hq
    injection hq with hq'
    rw [← hq']
    rcases shimCase [] List.nodup_nil with ⟨hsub, hnd⟩
    exact ⟨hnd, nodup_tokensOf _, hsub⟩
  | some p =>
    have hpn := (hinv p hp).1
    cases hcl : st.hasClassList with
    | true =>
      rw [classMap_run_native m hsh hp hcl] at happ
      have hattr : AttrSub (addRemovePass true m
          (removalPass true m ⟨st.attr, [], false, p, []⟩)) := by
        rw [addRemovePass_eq]
        refine arFold_attrSub m _ ?_
        rw [removalPass_eq]
        refine removalFold_attrSub m _ _ ?_
        exact ⟨(hinv p hp).2.2, (hinv p hp).2.1, hpn⟩
      injection happ with happ'
      rw [← happ']
      intro q hq
      injection hq with hq'
      rw [← hq']
      exact ⟨hattr.2.2, hattr.2.1, hattr.1⟩
    | false =>
      rw [classMap_run_fallback m hsh hp hcl,
        shimFinish_changed (shimRun_changed m st.attr p)] at happ
      injection happ with happ'
      rw [← happ']
      intro q hq
      injection hq with hq'
      rw [← hq']
      rcases shimCase p hpn with ⟨hsub, hnd⟩
      exact ⟨hnd, nodup_tokensOf _, hsub⟩

/-- A key with a falsy value is never in the stored managed set after a
successful application. -/
theorem falsy_unmanaged {sh : PartShape} {m : ClassInfo} {st : SiteState}
    {out : ApplyOut} {x : String} {v : JSVal} (hsh : badShape sh = false)
    (hkn : KeysNodup m) (hnd : ∀ p, st.prevCache = some p → p.Nodup)
    (hmem : (x, v) ∈ m) (hf : truthy v = false)
    (happ : classMap sh m st = .ok out) : x ∉ managedOf out := by
  have h0 : jsToNum v = some 0 := falsy_toNum hf
  have hk : hasKey m x = true := hasKey_of_mem hmem
  have main : ∀ (u : Bool) (p : List String), p.Nodup →
      ∀ (a0 : List String) (c0 : Bool),
      x ∉ (addRemovePass u m
        (removalPass u m ⟨a0, [], c0, p, []⟩)).prev := by
    intro u p hpn a0 c0
    have hrpnd :=
      removalPass_nodup u m (⟨a0, [], c0, p, []⟩ : ReconState) hpn
    have hcont :=
      removalPass_contains_key u m (⟨a0, [], c0, p, []⟩ : ReconState) hpn hk
    rcases arFold_key u m x v
      (removalPass u m (⟨a0, [], c0, p, []⟩ : ReconState)) hkn hmem hrpnd
      with ⟨hmem_iff, _⟩
    rw [addRemovePass_eq]
    intro hx
    rw [hmem_iff, hcont] at hx
    have hpc : (⟨a0, [], c0, p, []⟩ : ReconState).prev.contains x =
        p.contains x := rfl
    rw [hpc] at hx
    cases hc : p.contains x with
    | false =>
      have hle : looseEqBool v false = true := by
        simp [looseEqBool, h0]
      rw [hc, hle] at hx
      simp only [if_pos rfl] at hx
      have hxp :=
        ((removalPass_mem u m (⟨a0, [], c0, p, []⟩ : ReconState) hpn x).mp
          hx).1
      have : p.contains x = true := (contains_iff p x).mpr hxp
      rw [hc] at this
      exact Bool.noConfusion this
    | true =>
      have hle : looseEqBool v true = false := by
        simp [looseEqBool, h0]
      rw [hc, hle] at hx
      simp only [Bool.false_eq_true, if_false] at hx
      rw [hf] at hx
      exact Bool.noConfusion hx
  cases hp : st.prevCache with
  | none =>
    rw [classMap_run_fresh m hsh hp,
      shimFinish_changed (shimRun_changed m st.attr [])] at happ
    injection happ with happ'
    rw [← happ']
    exact main false [] List.nodup_nil st.attr true
  | some p =>
    have hpn := hnd p hp
    cases hcl : st.hasClassList with
    | true =>
      rw [classMap_run_native m hsh hp hcl] at happ
      injection happ with happ'
      rw [← happ']
      exact main true p hpn st.attr false
    | false =>
      rw [classMap_run_fallback m hsh hp hcl,
        shimFinish_changed (shimRun_changed m st.attr p)] at happ
      injection happ with happ'
      rw [← happ']
      exact main false p hpn st.attr true

/-- On the shim path, the passes never read the element's token list: the
result only differs from a run started with an empty token list in the
(untouched) `attr` field. -/
theorem arFold_attr_indep (entries : ClassInfo) :
    ∀ (a s : List String) (c : Bool) (p : List String) (o : List Op),
      entries.foldl (arStep false) ⟨a, s, c, p, o⟩ =
        { entries.foldl (arStep false) ⟨[], s, c, p, o⟩ with attr := a } := by
  induction entries with
  | nil => intro a s c p o; rfl
  | cons e rest ih =>
    intro a s c p o
    rw [List.foldl_cons, List.foldl_cons]
    by_cases hg : looseEqBool e.2 (p.contains e.1) = true
    · rw [arStep_eq_skip (show looseEqBool e.2
          ((⟨a, s, c, p, o⟩ : ReconState).prev.contains e.1) = true from hg),
        arStep_eq_skip (show looseEqBool e.2
          ((⟨[], s, c, p, o⟩ : ReconState).prev.contains e.1) = true from hg)]
      exact ih a s c p o
    · have hg' : looseEqBool e.2 (p.contains e.1) = false := by simpa using hg
      by_cases ht : truthy e.2 = true
      · rw [arStep_add_false (show looseEqBool e.2
            ((⟨a, s, c, p, o⟩ : ReconState).prev.contains e.1) = false
            from hg') ht,
          arStep_add_false (show looseEqBool e.2
            ((⟨[], s, c, p, o⟩ : ReconState).prev.contains e.1) = false
            from hg') ht]
        exact ih a _ _ _ _
      · have ht' : truthy e.2 = false := by simpa using ht
        rw [arStep_remove_false (show looseEqBool e.2
            ((⟨a, s, c, p, o⟩ : ReconState).prev.contains e.1) = false
            from hg') ht',
          arStep_remove_false (show looseEqBool e.2
            ((⟨[], s, c, p, o⟩ : ReconState).prev.contains e.1) = false
            from hg') ht']
        exact ih a _ _ _ _

/-! ### Sequences of applications -/

theorem applySeq_append (sh : PartShape) (as bs : List ClassInfo) :
    ∀ st : SiteState,
      applySeq sh (as ++ bs) st =
        (applySeq sh as st).bind (fun s2 => applySeq sh bs s2) := by
  induction as with
  | nil => intro st; rfl
  | cons mm rest ih =>
    intro st
    show applySeq sh (mm :: (rest ++ bs)) st = _
    cases hc : classMap sh mm st with
    | error e => simp [applySeq, hc, Except.bind]
    | ok out => simp [applySeq, hc, Except.bind, ih out.state]

theorem applySeq_inv {sh : PartShape} (hsh : badShape sh = false) :
    ∀ (ms : List ClassInfo) (st stF : SiteState),
      (∀ m ∈ ms, TokensOK m) → SiteInv st →
      applySeq sh ms st = .ok stF → SiteInv stF := by
  intro ms
  induction ms with
  | nil =>
    intro st stF _ hinv happ
    injection happ with happ'
    rw [← happ']
    exact hinv
  | cons mm rest ih =>
    intro st stF htoks hinv happ
    cases hc : classMap sh mm st with
    | error e =>
      simp only [applySeq, hc] at happ
      exact Except.noConfusion happ
    | ok out =>
      simp only [applySeq, hc] at happ
      exact ih out.state stF (fun m' hm' => htoks m' (by simp [hm']))
        (siteInv_step hsh (htoks mm (by simp)) hinv hc) happ

/-! ### The remaining claim theorems -/

instance (s : String) : Decidable (tokenOK s) := by
  unfold tokenOK; infer_instance

instance (m : ClassInfo) : Decidable (TokensOK m) := by
  unfold TokensOK; infer_instance

instance (m : ClassInfo) : Decidable (KeysNodup m) := by
  unfold KeysNodup; exact List.nodupDecidable _

/-- C10: after every completed (non-erroring) application, the managed set
persisted for the binding site exists and is a subset of the key set of the
`ClassInfo` just applied (names not occurring as keys were deleted by the
removal pass; the add/remove pass only inserts keys). -/
theorem classMap_c10_managed_subset (sh : PartShape) (m : ClassInfo)
    (st : SiteState) (out : ApplyOut) (hsh : badShape sh = false)
    (hnd : ∀ p, st.prevCache = some p → p.Nodup)
    (happ : classMap sh m st = .ok out) :
    ∃ q, out.state.prevCache = some q ∧ ∀ x ∈ q, hasKey m x = true := by
  rcases managed_keys_of_ok hsh hnd happ with ⟨q, h1, _, h3⟩
  exact ⟨q, h1, h3⟩

theorem classMap_c10_witness :
    ∃ q, (⟨⟨["foo"], true, some ["foo"]⟩, [Op.add "foo"], none⟩ :
        ApplyOut).state.prevCache = some q ∧
      ∀ x ∈ q, hasKey [("foo", JSVal.b true)] x = true :=
  classMap_c10_managed_subset shapeOK [("foo", JSVal.b true)]
    ⟨[], true, some []⟩ ⟨⟨["foo"], true, some ["foo"]⟩, [Op.add "foo"], none⟩
    (by decide)
    (fun p hp => by cases hp; exact List.nodup_nil)
    (by decide)

/-- C9: applying an empty `ClassInfo` is not an error: the previously
managed classes are each removed from the target (the trace is exactly one
remove per previously managed class, in order), no class is added, and the
stored managed set is empty afterwards. -/
theorem classMap_c9_empty_map (sh : PartShape) (st : SiteState)
    (p : List String) (out : ApplyOut) (hsh : badShape sh = false)
    (hp : st.prevCache = some p) (hpn : p.Nodup)
    (happ : classMap sh ([] : ClassInfo) st = .ok out) :
    managedOf out = [] ∧ out.ops = p.map Op.remove ∧
      ∀ x, Op.add x ∉ out.ops := by
  have hskip : ∀ (u : Bool) (r : ReconState),
      addRemovePass u ([] : ClassInfo) r = r := fun u r => rfl
  have main : ∀ (u : Bool) (a0 : List String) (c0 : Bool),
      ((removalPass u ([] : ClassInfo)
          (⟨a0, [], c0, p, []⟩ : ReconState)).prev = [] ∧
        (removalPass u ([] : ClassInfo)
          (⟨a0, [], c0, p, []⟩ : ReconState)).ops = p.map Op.remove) := by
    intro u a0 c0
    have h1 := removalFold_empty u p (⟨a0, [], c0, p, []⟩ : ReconState)
    constructor
    · have hprev : (removalPass u ([] : ClassInfo)
          (⟨a0, [], c0, p, []⟩ : ReconState)).prev =
          p.foldl (fun q n => q.erase n) p := h1.2
      rw [hprev, List.eq_nil_iff_forall_not_mem]
      intro x hx
      rcases (eraseFold_mem x p p hpn).1.mp hx with ⟨hxp, hnxp⟩
      exact hnxp hxp
    · have hops : (removalPass u ([] : ClassInfo)
          (⟨a0, [], c0, p, []⟩ : ReconState)).ops =
          [] ++ p.map Op.remove := h1.1
      simpa using hops
  have hnoadd : ∀ x, Op.add x ∉ p.map Op.remove := by
    intro x hx
    rcases List.mem_map.mp hx with ⟨y, _, heq⟩
    exact Op.noConfusion heq
  cases hcl : st.hasClassList with
  | true =>
    rw [classMap_run_native ([] : ClassInfo) hsh hp hcl] at happ
    rw [hskip] at happ
    injection happ with happ'
    rw [← happ']
    rcases main true st.attr false with ⟨h1, h2⟩
    refine ⟨?_, ?_, ?_⟩
    · simp only [managedOf, Option.getD]
      exact h1
    · exact h2
    · rw [h2]; exact hnoadd
  | false =>
    rw [classMap_run_fallback ([] : ClassInfo) hsh hp hcl,
      shimFinish_changed (by
        rw [hskip]
        rw [removalPass_eq]
        exact removalFold_changed false [] _ _ rfl)] at happ
    rw [hskip] at happ
    injection happ with happ'
    rw [← happ']
    rcases main false st.attr true with ⟨h1, h2⟩
    refine ⟨?_, ?_, ?_⟩
    · simp only [managedOf, Option.getD]
      exact h1
    · exact h2
    · rw [h2]; exact hnoadd

theorem classMap_c9_witness :
    managedOf (⟨⟨[], true, some []⟩, [Op.remove "old"], none⟩ : ApplyOut) =
        [] ∧
      (⟨⟨[], true, some []⟩, [Op.remove "old"], none⟩ : ApplyOut).ops =
        (["old"] : List String).map Op.remove ∧
      ∀ x, Op.add x ∉
        (⟨⟨[], true, some []⟩, [Op.remove "old"], none⟩ : ApplyOut).ops :=
  classMap_c9_empty_map shapeOK ⟨["old"], true, some ["old"]⟩ ["old"]
    ⟨⟨[], true, some []⟩, [Op.remove "old"], none⟩
    (by decide) rfl (by decide) (by decide)

/-- C2 (amended): on a fresh binding site, for every key of the applied map
the values `''`, `0` and `false` leave the class absent, and every other
value makes the class present **except** a truthy value that is loosely
equal (JS `==`) to `false` — such as the string `'0'` — which is skipped by
the `value != previousClasses.has(name)` guard and leaves the class absent.
Membership in both the written attribute and the stored managed set is
exactly `truthy v ∧ ¬(v == false)`. -/
theorem classMap_c2_amended (sh : PartShape) (m : ClassInfo)
    (a : List String) (hcl : Bool) (x : String) (v : JSVal) (out : ApplyOut)
    (hsh : badShape sh = false) (hkn : KeysNodup m) (htok : TokensOK m)
    (hmem : (x, v) ∈ m)
    (happ : classMap sh m ⟨a, hcl, none⟩ = .ok out) :
    ((x ∈ out.state.attr) ↔
      (truthy v = true ∧ looseEqBool v false = false)) ∧
    ((x ∈ managedOf out) ↔
      (truthy v = true ∧ looseEqBool v false = false)) := by
  rw [classMap_run_fresh m hsh rfl,
    shimFinish_changed
      (shimRun_changed m (⟨a, hcl, none⟩ : SiteState).attr [])] at happ
  injection happ with happ'
  have hrpnd : (removalPass false m
      (⟨(⟨a, hcl, none⟩ : SiteState).attr, [], true, [], []⟩ :
        ReconState)).prev.Nodup :=
    removalPass_nodup false m _ List.nodup_nil
  rcases arFold_key false m x v
    (removalPass false m
      (⟨(⟨a, hcl, none⟩ : SiteState).attr, [], true, [], []⟩ : ReconState))
    hkn hmem hrpnd with ⟨hmi, _⟩
  have hcontf : (removalPass false m
      (⟨(⟨a, hcl, none⟩ : SiteState).attr, [], true, [], []⟩ :
        ReconState)).prev.contains x = false := rfl
  rw [hcontf] at hmi
  have hprevmem : x ∈ (addRemovePass false m
      (removalPass false m
        (⟨(⟨a, hcl, none⟩ : SiteState).attr, [], true, [], []⟩ :
          ReconState))).prev ↔
      (truthy v = true ∧ looseEqBool v false = false) := by
    rw [addRemovePass_eq]
    rw [hmi]
    cases hle : looseEqBool v false with
    | true =>
      simp only [if_pos rfl]
      constructor
      · intro hx
        exact absurd ((removalPass_mem false m _ List.nodup_nil x).mp hx).1
          (List.not_mem_nil x)
      · rintro ⟨_, hfalse⟩
        exact Bool.noConfusion hfalse
    | false =>
      simp only [Bool.false_eq_true, if_false]
      exact ⟨fun h => ⟨h, by simp⟩, fun h => h.1⟩
  have hsheq : (addRemovePass false m
      (removalPass false m
        (⟨(⟨a, hcl, none⟩ : SiteState).attr, [], true, [], []⟩ :
          ReconState))).shim =
      (addRemovePass false m
        (removalPass false m
          (⟨(⟨a, hcl, none⟩ : SiteState).attr, [], true, [], []⟩ :
            ReconState))).prev := by
    rw [addRemovePass_eq]
    refine arFold_shimPrevEq m _ ?_
    rw [removalPass_eq]
    exact removalFold_shimPrevEq m _ _ rfl
  have hstoks : ∀ y ∈ (addRemovePass false m
      (removalPass false m
        (⟨(⟨a, hcl, none⟩ : SiteState).attr, [], true, [], []⟩ :
          ReconState))).shim, tokenOK y := by
    rw [addRemovePass_eq]
    refine arFold_shimTok htok _ ?_
    rw [removalPass_eq]
    refine removalFold_shimTok m _ _ ?_
    exact fun y hy => absurd hy (List.not_mem_nil y)
  rw [← happ']
  constructor
  · show x ∈ tokensOf (commitString _) ↔ _
    rw [mem_tokensOf_commitString (fun z hz => (hstoks z hz).2), hsheq]
    constructor
    · intro h
      exact hprevmem.mp h.1
    · intro h
      exact ⟨hprevmem.mpr h, (htok (x, v) hmem).1⟩
  · show x ∈ (some _).getD [] ↔ _
    exact hprevmem

theorem classMap_c2_amended_witness :
    (("foo" ∈ (⟨⟨["foo"], true, some ["foo"]⟩, [Op.add "foo"],
        some "foo "⟩ : ApplyOut).state.attr) ↔
      (truthy (JSVal.b true) = true ∧
        looseEqBool (JSVal.b true) false = false)) ∧
    (("foo" ∈ managedOf (⟨⟨["foo"], true, some ["foo"]⟩, [Op.add "foo"],
        some "foo "⟩ : ApplyOut)) ↔
      (truthy (JSVal.b true) = true ∧
        looseEqBool (JSVal.b true) false = false)) :=
  classMap_c2_amended shapeOK [("foo", JSVal.b true)] [] true "foo"
    (JSVal.b true) ⟨⟨["foo"], true, some ["foo"]⟩, [Op.add "foo"],
      some "foo "⟩
    (by decide) (by decide) (by decide) (by decide) (by decide)

/-- C5 (amended): for every key of the map, the reconciler toggles exactly
when the key's value is loosely unequal (JS `!=`) to the key's current
membership in the working managed set (which, for a key, is its membership
in the cached set: the removal pass does not touch keys); it adds when the
value is truthy and removes when it is falsy.  A key whose value is loosely
equal to its membership costs no target call.  For boolean values this
coincides with comparing truthiness to membership, but not in general: the
number `2` on a managed class triggers a redundant add, and the string `'0'`
on an unmanaged class is skipped. -/
theorem classMap_c5_amended (sh : PartShape) (m : ClassInfo)
    (st : SiteState) (p : List String) (x : String) (v : JSVal)
    (out : ApplyOut) (hsh : badShape sh = false) (hkn : KeysNodup m)
    (hp : st.prevCache = some p) (hpn : p.Nodup) (hmem : (x, v) ∈ m)
    (happ : classMap sh m st = .ok out) :
    opsOn x out.ops =
      (if looseEqBool v (p.contains x) = true then []
        else [if truthy v = true then Op.add x else Op.remove x]) := by
  have hk : hasKey m x = true := hasKey_of_mem hmem
  have main : ∀ (u : Bool) (a0 : List String) (c0 : Bool),
      opsOn x (addRemovePass u m
        (removalPass u m (⟨a0, [], c0, p, []⟩ : ReconState))).ops =
      (if looseEqBool v (p.contains x) = true then []
        else [if truthy v = true then Op.add x else Op.remove x]) := by
    intro u a0 c0
    have hrpnd :=
      removalPass_nodup u m (⟨a0, [], c0, p, []⟩ : ReconState) hpn
    have hcont :=
      removalPass_contains_key u m (⟨a0, [], c0, p, []⟩ : ReconState) hpn hk
    have hpc : (⟨a0, [], c0, p, []⟩ : ReconState).prev.contains x =
        p.contains x := rfl
    rw [hpc] at hcont
    rcases arFold_key u m x v
      (removalPass u m (⟨a0, [], c0, p, []⟩ : ReconState)) hkn hmem hrpnd
      with ⟨_, hops⟩
    rw [addRemovePass_eq, hops, hcont]
    have hrops : opsOn x (removalPass u m
        (⟨a0, [], c0, p, []⟩ : ReconState)).ops = opsOn x ([] : List Op) :=
      removalFold_ops_key hk p (⟨a0, [], c0, p, []⟩ : ReconState)
    rw [hrops]
    simp only [opsOn, List.filter_nil, List.nil_append]
  cases hcl : st.hasClassList with
  | true =>
    rw [classMap_run_native m hsh hp hcl] at happ
    injection happ with happ'
    rw [← happ']
    exact main true st.attr false
  | false =>
    rw [classMap_run_fallback m hsh hp hcl,
      shimFinish_changed (shimRun_changed m st.attr p)] at happ
    injection happ with happ'
    rw [← happ']
    exact main false st.attr true

theorem classMap_c5_amended_witness :
    opsOn "x" (⟨⟨["x"], true, some ["x"]⟩, [Op.add "x"], none⟩ :
        ApplyOut).ops =
      (if looseEqBool (JSVal.n 2) ((["x"] : List String).contains "x") = true
        then []
        else [if truthy (JSVal.n 2) = true then Op.add "x"
          else Op.remove "x"]) :=
  classMap_c5_amended shapeOK [("x", JSVal.n 2)] ⟨["x"], true, some ["x"]⟩
    ["x"] "x" (JSVal.n 2) ⟨⟨["x"], true, some ["x"]⟩, [Op.add "x"], none⟩
    (by decide) (by decide) rfl (by decide) (by decide) (by decide)

/-- C8: on the first application at a binding site, the reconciler always
uses the buffered shim regardless of native capability, seeds it empty (the
committed string, trace and stored managed set are independent of the
element's current class tokens and of `hasClassList`), and commits exactly
one class-attribute string: the space-joined class set with a trailing
separator (`commitString` of the final managed set). -/
theorem classMap_c8_first_render (sh : PartShape) (m : ClassInfo)
    (hsh : badShape sh = false) :
    ∃ s q ops, s = commitString q ∧
      ∀ (a : List String) (hcl : Bool),
        classMap sh m ⟨a, hcl, none⟩ =
          .ok ⟨⟨tokensOf s, hcl, some q⟩, ops, some s⟩ := by
  refine ⟨commitString (addRemovePass false m
      (removalPass false m ⟨[], [], true, [], []⟩)).shim,
    (addRemovePass false m
      (removalPass false m ⟨[], [], true, [], []⟩)).prev,
    (addRemovePass false m
      (removalPass false m ⟨[], [], true, [], []⟩)).ops, ?_, ?_⟩
  · have heq : (addRemovePass false m
        (removalPass false m (⟨[], [], true, [], []⟩ : ReconState))).shim =
        (addRemovePass false m
          (removalPass false m (⟨[], [], true, [], []⟩ : ReconState))).prev := by
      rw [addRemovePass_eq]
      refine arFold_shimPrevEq m _ ?_
      rw [removalPass_eq]
      exact removalFold_shimPrevEq m _ _ rfl
    rw [heq]
  · intro a hcl
    rw [classMap_run_fresh m hsh rfl,
      shimFinish_changed
        (shimRun_changed m (⟨a, hcl, none⟩ : SiteState).attr [])]
    have hind : addRemovePass false m
        (removalPass false m
          (⟨(⟨a, hcl, none⟩ : SiteState).attr, [], true, [], []⟩ :
            ReconState)) =
        { addRemovePass false m
            (removalPass false m (⟨[], [], true, [], []⟩ : ReconState)) with
          attr := a } :=
      arFold_attr_indep m a [] true [] []
    rw [hind]

theorem classMap_c8_witness :
    ∃ s q ops, s = commitString q ∧
      ∀ (a : List String) (hcl : Bool),
        classMap shapeOK [("foo", JSVal.b true)] ⟨a, hcl, none⟩ =
          .ok ⟨⟨tokensOf s, hcl, some q⟩, ops, some s⟩ :=
  classMap_c8_first_render shapeOK [("foo", JSVal.b true)] (by decide)

/-- C7: (1) every class in the previous managed set that is absent as a key
of the applied map is removed from the target (a remove call appears in the
trace) and dropped from the stored managed set; (2) for a sequence of
applications at one binding site ending in maps M1 then M2, every class
truthy in M1 but absent or falsy as a key in M2 is absent from the element
after applying M2. -/
theorem classMap_c7_removal (sh : PartShape) (hsh : badShape sh = false) :
    (∀ (m : ClassInfo) (st : SiteState) (p : List String) (out : ApplyOut)
        (x : String),
      st.prevCache = some p → p.Nodup → x ∈ p → hasKey m x = false →
      classMap sh m st = .ok out →
      Op.remove x ∈ out.ops ∧ x ∉ managedOf out) ∧
    (∀ (ms : List ClassInfo) (M1 M2 : ClassInfo) (a : List String)
        (hcl : Bool) (stF : SiteState),
      (∀ m' ∈ ms, TokensOK m') → TokensOK M1 → TokensOK M2 → KeysNodup M2 →
      applySeq sh (ms ++ [M1, M2]) ⟨a, hcl, none⟩ = .ok stF →
      ∀ (x : String) (v : JSVal), (x, v) ∈ M1 → truthy v = true →
      (hasKey M2 x = false ∨ ∃ w, (x, w) ∈ M2 ∧ truthy w = false) →
      x ∉ stF.attr) := by
  constructor
  · intro m st p out x hp hpn hxp hk happ
    have main : ∀ (u : Bool) (a0 : List String) (c0 : Bool),
        Op.remove x ∈ (addRemovePass u m
          (removalPass u m (⟨a0, [], c0, p, []⟩ : ReconState))).ops ∧
        x ∉ (addRemovePass u m
          (removalPass u m (⟨a0, [], c0, p, []⟩ : ReconState))).prev := by
      intro u a0 c0
      constructor
      · rw [addRemovePass_eq]
        refine arFold_ops_mono u _ m _ ?_
        rw [removalPass_eq]
        exact removalFold_remove_op hk p (⟨a0, [], c0, p, []⟩ : ReconState)
          hxp
      · rw [addRemovePass_eq]
        intro hx
        rcases arFold_notkey u x m
          (removalPass u m (⟨a0, [], c0, p, []⟩ : ReconState))
          (not_hasKey_ne hk) with ⟨hmi, _⟩
        have hx2 := hmi.mp hx
        rcases (removalPass_mem u m (⟨a0, [], c0, p, []⟩ : ReconState)
          hpn x).mp hx2 with ⟨_, hkx⟩
        rw [hk] at hkx
        exact Bool.noConfusion hkx
    cases hcl : st.hasClassList with
    | true =>
      rw [classMap_run_native m hsh hp hcl] at happ
      injection happ with happ'
      rw [← happ']
      exact ⟨(main true st.attr false).1, (main true st.attr false).2⟩
    | false =>
      rw [classMap_run_fallback m hsh hp hcl,
        shimFinish_changed (shimRun_changed m st.attr p)] at happ
      injection happ with happ'
      rw [← happ']
      exact ⟨(main false st.attr true).1, (main false st.attr true).2⟩
  · intro ms M1 M2 a hcl stF htoks htok1 htok2 hkn2 happ x v hv1 ht hcase
    have hinv0 : SiteInv (⟨a, hcl, none⟩ : SiteState) :=
      fun q hq => Option.noConfusion hq
    rw [applySeq_append] at happ
    cases h1 : applySeq sh ms ⟨a, hcl, none⟩ with
    | error e =>
      rw [h1] at happ
      exact absurd happ (by simp [Except.bind])
    | ok st1 =>
      rw [h1] at happ
      simp only [Except.bind] at happ
      have hinv1 : SiteInv st1 :=
        applySeq_inv hsh ms _ st1 htoks hinv0 h1
      cases h2 : classMap sh M1 st1 with
      | error e =>
        simp only [applySeq, h2] at happ
        exact Except.noConfusion happ
      | ok out1 =>
        simp only [applySeq, h2] at happ
        have hinv2 : SiteInv out1.state :=
          siteInv_step hsh htok1 hinv1 h2
        cases h3 : classMap sh M2 out1.state with
        | error e =>
          simp only [applySeq, h3] at happ
          exact Except.noConfusion happ
        | ok out2 =>
          simp only [applySeq, h3] at happ
          injection happ with happ'
          have hinvF : SiteInv out2.state :=
            siteInv_step hsh htok2 hinv2 h3
          rcases managed_keys_of_ok hsh (fun p hp => (hinv2 p hp).1) h3 with
            ⟨qF, hqF, _, hkeys⟩
          rw [← happ']
          intro hxattr
          have hxq : x ∈ qF := (hinvF qF hqF).2.2 x hxattr
          rcases hcase with habs | ⟨w, hw, hwf⟩
          · rw [hkeys x hxq] at habs
            exact Bool.noConfusion habs
          · have hnm : x ∉ managedOf out2 :=
              falsy_unmanaged hsh hkn2 (fun p hp => (hinv2 p hp).1) hw hwf h3
            refine hnm ?_
            show x ∈ out2.state.prevCache.getD []
            rw [hqF]
            exact hxq

theorem classMap_c7_witness :
    (Op.remove "baz" ∈
        (⟨⟨[], true, some []⟩, [Op.remove "baz"], none⟩ : ApplyOut).ops ∧
      "baz" ∉ managedOf
        (⟨⟨[], true, some []⟩, [Op.remove "baz"], none⟩ : ApplyOut)) ∧
    "foo" ∉ (⟨[], true, some []⟩ : SiteState).attr := by
  constructor
  · exact (classMap_c7_removal shapeOK (by decide)).1 []
      ⟨["baz"], true, some ["baz"]⟩ ["baz"]
      ⟨⟨[], true, some []⟩, [Op.remove "baz"], none⟩ "baz"
      rfl (by decide) (by decide) (by decide) (by decide)
  · exact (classMap_c7_removal shapeOK (by decide)).2 []
      [("foo", JSVal.b true)] [] [] true ⟨[], true, some []⟩
      (fun m' hm' => absurd hm' (List.not_mem_nil m'))
      (by decide) (by decide) (by decide) (by decide)
      "foo" (JSVal.b true) (by decide) (by decide)
      (Or.inl (by decide))

end LitClassMap
